import Mathlib

/-!
Shallow embedding of the root-word derivation and resolution pipeline of
`app.py` (Vocab Tracker).  Python strings are modelled as lists of
characters (`Str`); the Merriam-Webster network lookup is modelled as an
oracle `Net`, where `none` stands for a raised exception.
-/

/-- Python strings, modelled as lists of `Char`. -/
abbrev Str := List Char

/-- The character list of a Lean string literal (used for concrete inputs). -/
def s2l (s : String) : Str := s.data

/-- Python `str.lower` (ASCII, the only case exercised by the app). -/
def lowerS (w : Str) : Str := w.map Char.toLower

/-- Python whitespace, for `str.strip`. -/
def isPySpace (c : Char) : Bool :=
  c = ' ' || c = '\t' || c = '\n' || c = '\r' || c = '\x0b' || c = '\x0c'

/-- Python `str.strip`: drop leading and trailing whitespace. -/
def stripS (w : Str) : Str :=
  ((w.dropWhile isPySpace).reverse.dropWhile isPySpace).reverse

/-- `word.lower().strip()`, the normalisation the app applies to queries. -/
def normQ (w : Str) : Str := stripS (lowerS w)

/-- Helper for Python `str.title`: the flag records whether the previous
character was cased (for ASCII: alphabetic). -/
def titleAux : Bool → Str → Str
  | _, [] => []
  | prevCased, c :: t =>
    if c.isAlpha then
      (if prevCased then c.toLower else c.toUpper) :: titleAux true t
    else
      c :: titleAux false t

/-- Python `str.title`. -/
def titleS (w : Str) : Str := titleAux false w

/-- Python substring test `needle in hay` (contiguous substring). -/
def isSub (needle hay : Str) : Bool :=
  needle.isPrefixOf hay ||
    match hay with
    | [] => false
    | _ :: t => isSub needle t

/-- Python slice `w[:-n]`. -/
def cut (w : Str) (n : Nat) : Str := w.take (w.length - n)

/-- Python negative index `w[-k]` (used only under length guards). -/
def lastC (w : Str) (k : Nat) : Char := w.getD (w.length - k) ' '

/-- Python `w.endswith(suf)`. -/
def endsS (w suf : Str) : Bool := suf.isSuffixOf w

/-- `_get_root_step` (app.py lines 48-81): one suffix-stripping hop.
Python's `if w.endswith("es"): ...` block can fall through to the plain
`-s` rule when neither of its two inner returns fires, so the `-es` branch
below carries the two inner conditions as a disjunction. -/
def _get_root_step (w : Str) : Option Str :=
  if w.length < 4 then none
  else if endsS w (s2l "lly") then some (cut w 1)
  else if endsS w (s2l "ing") then
    let base := cut w 3
    if base.length > 2 ∧ lastC base 1 = lastC base 2 then some (cut base 1) else some base
  else if endsS w (s2l "ed") then
    if endsS w (s2l "ied") then some (cut w 3 ++ ['y'])
    else
      let base := cut w 2
      if base.length > 2 ∧ lastC base 1 = lastC base 2 then some (cut base 1) else some base
  else if endsS w (s2l "ly") then
    if endsS w (s2l "ily") then some (cut w 3 ++ ['y']) else some (cut w 2)
  else if endsS w (s2l "es") ∧
      (endsS w (s2l "ies") ∨
        (w.length > 4 ∧ (lastC w 3 = 's' ∨ lastC w 3 = 'x' ∨ lastC w 3 = 'z' ∨ lastC w 3 = 'h'))) then
    if endsS w (s2l "ies") then some (cut w 3 ++ ['y'])
    else some (cut w 2)
  else if endsS w (s2l "s") ∧ ¬ endsS w (s2l "ss") then some (cut w 1)
  else if endsS w (s2l "er") then
    if endsS w (s2l "ier") then some (cut w 3 ++ ['y'])
    else
      let base := cut w 2
      if base.length > 2 ∧ lastC base 1 = lastC base 2 then some (cut base 1) else some base
  else if endsS w (s2l "est") then
    if endsS w (s2l "iest") then some (cut w 4 ++ ['y'])
    else
      let base := cut w 3
      if base.length > 2 ∧ lastC base 1 = lastC base 2 then some (cut base 1) else some base
  else if endsS w (s2l "y") then
    let base := cut w 1
    if base.length > 2 ∧ lastC base 1 = lastC base 2 then some (cut base 1) else some base
  else none

/-- The hop loop of `get_possible_root` (`for _ in range(3)`); Python's
`if not next_step or len(next_step) < 3: break`, where `not next_step`
is true for `None` and for the empty string. -/
def hopLoop : Nat → Str → Str
  | 0, current => current
  | n + 1, current =>
    match _get_root_step current with
    | none => current
    | some nxt => if nxt = [] ∨ nxt.length < 3 then current else hopLoop n nxt

/-- `get_possible_root` (app.py lines 83-90). -/
def get_possible_root (word : Str) : Option Str :=
  if hopLoop 3 (normQ word) = normQ word then none else some (hopLoop 3 (normQ word))

/-- One element of a Merriam-Webster JSON response list: a bare suggestion
string, or an entry object (only the kind matters to `validate_word_exists`). -/
inductive MWItem
  | strItem (s : Str)
  | dictItem
deriving DecidableEq

/-- Outcome of a network lookup: `none` models a raised exception (network
error or undecodable body); `some d` the decoded JSON list. -/
abbrev Net := Str → Option (List MWItem)

/-- `validate_word_exists` (app.py lines 128-135): false on exception, on an
empty response and on a suggestion-list response. -/
def validate_word_exists (net : Net) (candidate : Str) : Bool :=
  match net candidate with
  | none => false
  | some [] => false
  | some (MWItem.strItem _ :: _) => false
  | some (MWItem.dictItem :: _) => true

/-- Step 1 of the resolver (app.py lines 153-156): the redirect check against
`data[0]["meta"]["id"].split(":")[0]`. -/
def redirectCand (metaId target_clean : Str) : Option Str :=
  let first_entry_id := metaId.takeWhile (fun c => c != ':')
  if first_entry_id ≠ [] ∧ lowerS first_entry_id ≠ target_clean then
    if isSub (lowerS first_entry_id) target_clean then none
    else some (titleS first_entry_id)
  else none

/-- Step 2 of the resolver (app.py lines 158-164): scan the entries for
cross-reference targets.  A `none` entry models a list element that is not a
dict or has no `"cxs"` key; each inner list holds the `cxt` values of one
`cx`'s `cxtis` (empty string when the `"cxt"` key is absent).  The Python
loop assigns `root_word_ref = tgt.title()` for every non-empty target, so
later targets overwrite earlier ones. -/
def cxScan (entries : List (Option (List (List Str)))) : Option Str :=
  entries.foldl
    (fun acc entry =>
      match entry with
      | none => acc
      | some cxs =>
        cxs.foldl
          (fun acc2 cxtis =>
            cxtis.foldl (fun acc3 tgt => if tgt ≠ [] then some (titleS tgt) else acc3) acc2)
          acc)
    none

/-- The accumulator-overwriting fold of the cross-reference scan, on one flat
list of targets (used to state what `cxScan` computes). -/
def overwriteFold (a : Option Str) (ts : List Str) : Option Str :=
  ts.foldl (fun acc3 tgt => if tgt ≠ [] then some (titleS tgt) else acc3) a

/-- Steps 1-2 combined (app.py lines 152-164): the authoritative candidate
before any deepening; the cross-reference scan runs only when the redirect
check produced nothing (`if not root_word_ref`). -/
def authCand (query metaId : Str) (entries : List (Option (List (List Str)))) : Option Str :=
  match redirectCand metaId (normQ query) with
  | some r => some r
  | none => cxScan entries

/-- The root-resolution pipeline of `get_mw_data` (app.py lines 150-174):
steps 1-2 pick an authoritative candidate, which is then deepened by
`get_possible_root` when the deeper guess validates; with no authoritative
candidate, a heuristic guess on the query itself is validated or discarded. -/
def resolve_root (query metaId : Str) (entries : List (Option (List (List Str))))
    (net : Net) : Option Str :=
  let target_clean := normQ query
  match authCand query metaId entries with
  | some r =>
    match get_possible_root r with
    | some deeper =>
      if deeper ≠ [] ∧ validate_word_exists net deeper = true then some (titleS deeper)
      else some r
    | none => some r
  | none =>
    match get_possible_root target_clean with
    | some guess =>
      if guess ≠ [] ∧ validate_word_exists net guess = true then some (titleS guess)
      else none
    | none => none

/-- One bounded iteration of the stripper exactly as `hopLoop` performs it:
apply `_get_root_step` and keep the previous candidate when the hop fails or
produces a degenerate (empty or shorter-than-3) word. -/
def oneHop (c : Str) : Str :=
  match _get_root_step c with
  | none => c
  | some nxt => if nxt = [] ∨ nxt.length < 3 then c else nxt

/-- A lookup that always succeeds with a dictionary entry. -/
def netYes : Net := fun _ => some [MWItem.dictItem]

/-- A lookup that always raises. -/
def netRaise : Net := fun _ => none

/-- A lookup that always answers with a suggestion list (word unknown). -/
def netNo : Net := fun _ => some [MWItem.strItem []]

/-! ### Helper lemmas -/

/-- Every string is a Python-substring of itself. -/
theorem isSub_refl (l : Str) : isSub l l = true := by
  cases l with
  | nil => rfl
  | cons c t =>
    unfold isSub
    have : List.isPrefixOf (c :: t) (c :: t) = true := by
      simp [List.isPrefixOf_iff_prefix]
    simp [this]

/-- `Char.ofNat` really stores the given (valid) code point. -/
theorem char_toNat_ofNat {n : Nat} (h : n.isValidChar) : (Char.ofNat n).toNat = n := by
  unfold Char.ofNat
  rw [dif_pos h]
  rfl

/-- Lowercasing after uppercasing is just lowercasing (basic latin). -/
theorem toLower_toUpper (c : Char) : c.toUpper.toLower = c.toLower := by
  simp only [Char.toUpper]
  by_cases h : c.toNat ≥ 97 ∧ c.toNat ≤ 122
  · rw [if_pos h]
    have hv : Nat.isValidChar (c.toNat - 32) := Or.inl (by omega)
    have ht : (Char.ofNat (c.toNat - 32)).toNat = c.toNat - 32 := char_toNat_ofNat hv
    simp only [Char.toLower, ht]
    rw [if_pos (by omega : c.toNat - 32 ≥ 65 ∧ c.toNat - 32 ≤ 90),
      if_neg (by omega : ¬(c.toNat ≥ 65 ∧ c.toNat ≤ 90))]
    have h32 : c.toNat - 32 + 32 = c.toNat := by omega
    rw [h32, Char.ofNat_toNat]
  · rw [if_neg h]

/-- Lowercasing is idempotent (basic latin). -/
theorem toLower_toLower (c : Char) : c.toLower.toLower = c.toLower := by
  simp only [Char.toLower]
  by_cases h : c.toNat ≥ 65 ∧ c.toNat ≤ 90
  · rw [if_pos h]
    have hv : Nat.isValidChar (c.toNat + 32) := Or.inl (by omega)
    have ht : (Char.ofNat (c.toNat + 32)).toNat = c.toNat + 32 := char_toNat_ofNat hv
    rw [ht, if_neg (by omega : ¬(c.toNat + 32 ≥ 65 ∧ c.toNat + 32 ≤ 90))]
  · rw [if_neg h, if_neg h]

/-- Title-casing does not change the lower-cased form. -/
theorem lowerS_cons (c : Char) (l : Str) : lowerS (c :: l) = c.toLower :: lowerS l := rfl

theorem lowerS_titleAux (flag : Bool) (w : Str) : lowerS (titleAux flag w) = lowerS w := by
  induction w generalizing flag with
  | nil => rfl
  | cons c t ih =>
    by_cases h : c.isAlpha = true
    · cases flag with
      | true =>
        have h1 : titleAux true (c :: t) = c.toLower :: titleAux true t := by
          conv_lhs => unfold titleAux
          rw [if_pos h]
          rfl
        rw [h1, lowerS_cons, lowerS_cons, toLower_toLower, ih true]
      | false =>
        have h2 : titleAux false (c :: t) = c.toUpper :: titleAux true t := by
          conv_lhs => unfold titleAux
          rw [if_pos h]
          rfl
        rw [h2, lowerS_cons, lowerS_cons, toLower_toUpper, ih true]
    · have h3 : titleAux flag (c :: t) = c :: titleAux false t := by
        cases flag <;>
          · conv_lhs => unfold titleAux
            rw [if_neg h]
      rw [h3, lowerS_cons, lowerS_cons, ih false]

theorem lowerS_titleS (w : Str) : lowerS (titleS w) = lowerS w := lowerS_titleAux false w

theorem lowerS_length (w : Str) : (lowerS w).length = w.length := List.length_map w _

/-- Stripping only shortens. -/
theorem stripS_length_le (w : Str) : (stripS w).length ≤ w.length := by
  unfold stripS
  calc ((w.dropWhile isPySpace).reverse.dropWhile isPySpace).reverse.length
      = ((w.dropWhile isPySpace).reverse.dropWhile isPySpace).length := List.length_reverse _
    _ ≤ (w.dropWhile isPySpace).reverse.length := (List.dropWhile_sublist _).length_le
    _ = (w.dropWhile isPySpace).length := List.length_reverse _
    _ ≤ w.length := (List.dropWhile_sublist _).length_le

theorem normQ_length_le (w : Str) : (normQ w).length ≤ w.length := by
  calc (normQ w).length ≤ (lowerS w).length := stripS_length_le _
    _ = w.length := lowerS_length w

set_option maxHeartbeats 1600000 in
/-- A successful stripping hop strictly shortens the word. -/
theorem step_shorter {w v : Str} (h : _get_root_step w = some v) : v.length < w.length := by
  unfold _get_root_step at h
  dsimp only at h
  by_cases c1 : w.length < 4
  · rw [if_pos c1] at h
    exact Option.noConfusion h
  rw [if_neg c1] at h
  by_cases c2 : endsS w (s2l "lly") = true
  · rw [if_pos c2] at h
    rw [← Option.some.inj h]
    simp only [cut, List.length_take, List.length_append, List.length_cons, List.length_nil]
    omega
  rw [if_neg c2] at h
  by_cases c3 : endsS w (s2l "ing") = true
  · rw [if_pos c3] at h
    by_cases d3 : (cut w 3).length > 2 ∧ lastC (cut w 3) 1 = lastC (cut w 3) 2
    · rw [if_pos d3] at h
      rw [← Option.some.inj h]
      simp only [cut, List.length_take, List.length_append, List.length_cons, List.length_nil]
      omega
    · rw [if_neg d3] at h
      rw [← Option.some.inj h]
      simp only [cut, List.length_take, List.length_append, List.length_cons, List.length_nil]
      omega
  rw [if_neg c3] at h
  by_cases c4 : endsS w (s2l "ed") = true
  · rw [if_pos c4] at h
    by_cases e4 : endsS w (s2l "ied") = true
    · rw [if_pos e4] at h
      rw [← Option.some.inj h]
      simp only [cut, List.length_take, List.length_append, List.length_cons, List.length_nil]
      omega
    rw [if_neg e4] at h
    by_cases d4 : (cut w 2).length > 2 ∧ lastC (cut w 2) 1 = lastC (cut w 2) 2
    · rw [if_pos d4] at h
      rw [← Option.some.inj h]
      simp only [cut, List.length_take, List.length_append, List.length_cons, List.length_nil]
      omega
    · rw [if_neg d4] at h
      rw [← Option.some.inj h]
      simp only [cut, List.length_take, List.length_append, List.length_cons, List.length_nil]
      omega
  rw [if_neg c4] at h
  by_cases c5 : endsS w (s2l "ly") = true
  · rw [if_pos c5] at h
    by_cases e5 : endsS w (s2l "ily") = true
    · rw [if_pos e5] at h
      rw [← Option.some.inj h]
      simp only [cut, List.length_take, List.length_append, List.length_cons, List.length_nil]
      omega
    · rw [if_neg e5] at h
      rw [← Option.some.inj h]
      simp only [cut, List.length_take, List.length_append, List.length_cons, List.length_nil]
      omega
  rw [if_neg c5] at h
  by_cases c6 : endsS w (s2l "es") = true ∧
      (endsS w (s2l "ies") = true ∨
        (w.length > 4 ∧ (lastC w 3 = 's' ∨ lastC w 3 = 'x' ∨ lastC w 3 = 'z' ∨ lastC w 3 = 'h')))
  · rw [if_pos c6] at h
    by_cases e6 : endsS w (s2l "ies") = true
    · rw [if_pos e6] at h
      rw [← Option.some.inj h]
      simp only [cut, List.length_take, List.length_append, List.length_cons, List.length_nil]
      omega
    · rw [if_neg e6] at h
      rw [← Option.some.inj h]
      simp only [cut, List.length_take, List.length_append, List.length_cons, List.length_nil]
      omega
  rw [if_neg c6] at h
  by_cases c7 : endsS w (s2l "s") = true ∧ ¬ endsS w (s2l "ss") = true
  · rw [if_pos c7] at h
    rw [← Option.some.inj h]
    simp only [cut, List.length_take, List.length_append, List.length_cons, List.length_nil]
    omega
  rw [if_neg c7] at h
  by_cases c8 : endsS w (s2l "er") = true
  · rw [if_pos c8] at h
    by_cases e8 : endsS w (s2l "ier") = true
    · rw [if_pos e8] at h
      rw [← Option.some.inj h]
      simp only [cut, List.length_take, List.length_append, List.length_cons, List.length_nil]
      omega
    rw [if_neg e8] at h
    by_cases d8 : (cut w 2).length > 2 ∧ lastC (cut w 2) 1 = lastC (cut w 2) 2
    · rw [if_pos d8] at h
      rw [← Option.some.inj h]
      simp only [cut, List.length_take, List.length_append, List.length_cons, List.length_nil]
      omega
    · rw [if_neg d8] at h
      rw [← Option.some.inj h]
      simp only [cut, List.length_take, List.length_append, List.length_cons, List.length_nil]
      omega
  rw [if_neg c8] at h
  by_cases c9 : endsS w (s2l "est") = true
  · rw [if_pos c9] at h
    by_cases e9 : endsS w (s2l "iest") = true
    · rw [if_pos e9] at h
      rw [← Option.some.inj h]
      simp only [cut, List.length_take, List.length_append, List.length_cons, List.length_nil]
      omega
    rw [if_neg e9] at h
    by_cases d9 : (cut w 3).length > 2 ∧ lastC (cut w 3) 1 = lastC (cut w 3) 2
    · rw [if_pos d9] at h
      rw [← Option.some.inj h]
      simp only [cut, List.length_take, List.length_append, List.length_cons, List.length_nil]
      omega
    · rw [if_neg d9] at h
      rw [← Option.some.inj h]
      simp only [cut, List.length_take, List.length_append, List.length_cons, List.length_nil]
      omega
  rw [if_neg c9] at h
  by_cases c10 : endsS w (s2l "y") = true
  · rw [if_pos c10] at h
    by_cases d10 : (cut w 1).length > 2 ∧ lastC (cut w 1) 1 = lastC (cut w 1) 2
    · rw [if_pos d10] at h
      rw [← Option.some.inj h]
      simp only [cut, List.length_take, List.length_append, List.length_cons, List.length_nil]
      omega
    · rw [if_neg d10] at h
      rw [← Option.some.inj h]
      simp only [cut, List.length_take, List.length_append, List.length_cons, List.length_nil]
      omega
  rw [if_neg c10] at h
  exact Option.noConfusion h

/-- The hop loop when the hop fails at once. -/
theorem hopLoop_succ_none {x : Str} (h : _get_root_step x = none) (n : Nat) :
    hopLoop (n + 1) x = x := by
  unfold hopLoop
  rw [h]

/-- The hop loop when the hop yields `nxt`. -/
theorem hopLoop_succ_some {x nxt : Str} (h : _get_root_step x = some nxt) (n : Nat) :
    hopLoop (n + 1) x = if nxt = [] ∨ nxt.length < 3 then x else hopLoop n nxt := by
  conv_lhs => unfold hopLoop
  rw [h]

/-- `oneHop` when the hop fails. -/
theorem oneHop_none {x : Str} (h : _get_root_step x = none) : oneHop x = x := by
  unfold oneHop
  rw [h]

/-- `oneHop` when the hop yields `nxt`. -/
theorem oneHop_some {x nxt : Str} (h : _get_root_step x = some nxt) :
    oneHop x = if nxt = [] ∨ nxt.length < 3 then x else nxt := by
  unfold oneHop
  rw [h]

/-- Once a hop fails, the loop is stationary. -/
theorem hopLoop_of_step_none {x : Str} (h : _get_root_step x = none) (n : Nat) :
    hopLoop n x = x := by
  cases n with
  | zero => rfl
  | succ m => exact hopLoop_succ_none h m

/-- Once a hop degenerates, the loop is stationary. -/
theorem hopLoop_of_step_short {x nxt : Str} (h : _get_root_step x = some nxt)
    (hs : nxt = [] ∨ nxt.length < 3) (n : Nat) : hopLoop n x = x := by
  cases n with
  | zero => rfl
  | succ m => rw [hopLoop_succ_some h, if_pos hs]

/-- The hop loop either returns its input or something strictly shorter. -/
theorem hopLoop_lt (n : Nat) (x : Str) :
    hopLoop n x = x ∨ (hopLoop n x).length < x.length := by
  induction n generalizing x with
  | zero => exact Or.inl rfl
  | succ m ih =>
    cases hstep : _get_root_step x with
    | none => rw [hopLoop_succ_none hstep]; exact Or.inl rfl
    | some nxt =>
      rw [hopLoop_succ_some hstep]
      by_cases hshort : nxt = [] ∨ nxt.length < 3
      · rw [if_pos hshort]; exact Or.inl rfl
      · rw [if_neg hshort]
        rcases ih nxt with heq | hlt
        · rw [heq]; exact Or.inr (step_shorter hstep)
        · exact Or.inr (Nat.lt_trans hlt (step_shorter hstep))

/-- The hop loop steps through `oneHop`. -/
theorem hopLoop_succ (n : Nat) (x : Str) : hopLoop (n + 1) x = hopLoop n (oneHop x) := by
  cases hstep : _get_root_step x with
  | none => rw [hopLoop_succ_none hstep, oneHop_none hstep, hopLoop_of_step_none hstep]
  | some nxt =>
    rw [hopLoop_succ_some hstep, oneHop_some hstep]
    by_cases hshort : nxt = [] ∨ nxt.length < 3
    · rw [if_pos hshort, if_pos hshort, hopLoop_of_step_short hstep hshort]
    · rw [if_neg hshort, if_neg hshort]

theorem hopLoop_three (x : Str) : hopLoop 3 x = oneHop (oneHop (oneHop x)) := by
  rw [hopLoop_succ, hopLoop_succ, hopLoop_succ]
  rfl

/-- A produced root is strictly shorter than the normalised input. -/
theorem gpr_some_lt {w g : Str} (h : get_possible_root w = some g) :
    g.length < (normQ w).length := by
  unfold get_possible_root at h
  by_cases heq : hopLoop 3 (normQ w) = normQ w
  · rw [if_pos heq] at h
    exact Option.noConfusion h
  · rw [if_neg heq] at h
    have hg : hopLoop 3 (normQ w) = g := Option.some.inj h
    rcases hopLoop_lt 3 (normQ w) with h' | h'
    · exact absurd h' heq
    · rw [← hg]; exact h'

/-- The hop loop either returns its input or a word of length at least 3. -/
theorem hopLoop_eq_or_three (n : Nat) (x : Str) :
    hopLoop n x = x ∨ 3 ≤ (hopLoop n x).length := by
  induction n generalizing x with
  | zero => exact Or.inl rfl
  | succ m ih =>
    cases hstep : _get_root_step x with
    | none => rw [hopLoop_succ_none hstep]; exact Or.inl rfl
    | some nxt =>
      rw [hopLoop_succ_some hstep]
      by_cases hshort : nxt = [] ∨ nxt.length < 3
      · rw [if_pos hshort]; exact Or.inl rfl
      · rw [if_neg hshort]
        rcases ih nxt with heq2 | hle
        · rw [heq2]; exact Or.inr (by omega)
        · exact Or.inr hle

/-- A produced root is non-empty (it survived the length-3 floor). -/
theorem gpr_some_ne_nil {w g : Str} (h : get_possible_root w = some g) : g ≠ [] := by
  unfold get_possible_root at h
  by_cases heq : hopLoop 3 (normQ w) = normQ w
  · rw [if_pos heq] at h
    exact Option.noConfusion h
  · rw [if_neg heq] at h
    have hg : hopLoop 3 (normQ w) = g := Option.some.inj h
    intro hnil
    rcases hopLoop_eq_or_three 3 (normQ w) with h' | h'
    · exact heq h'
    · rw [hg, hnil] at h'
      simp at h'

/-- Step 1 hit: the authoritative candidate is the redirect candidate. -/
theorem authCand_redirect {q metaId : Str} {entries : List (Option (List (List Str)))}
    {r : Str} (h : redirectCand metaId (normQ q) = some r) :
    authCand q metaId entries = some r := by
  unfold authCand
  rw [h]

/-- Step 1 miss: the authoritative candidate comes from the cross-reference scan. -/
theorem authCand_cx {q metaId : Str} {entries : List (Option (List (List Str)))}
    (h : redirectCand metaId (normQ q) = none) :
    authCand q metaId entries = cxScan entries := by
  unfold authCand
  rw [h]

/-- Resolver, authoritative candidate that cannot be deepened. -/
theorem resolve_root_auth_none {q metaId : Str} {entries : List (Option (List (List Str)))}
    {net : Net} {r : Str} (h : authCand q metaId entries = some r)
    (hd : get_possible_root r = none) :
    resolve_root q metaId entries net = some r := by
  unfold resolve_root
  rw [h]
  dsimp only
  rw [hd]

/-- Resolver, authoritative candidate with a deeper guess. -/
theorem resolve_root_auth_some {q metaId : Str} {entries : List (Option (List (List Str)))}
    {net : Net} {r d : Str} (h : authCand q metaId entries = some r)
    (hd : get_possible_root r = some d) :
    resolve_root q metaId entries net =
      if d ≠ [] ∧ validate_word_exists net d = true then some (titleS d) else some r := by
  unfold resolve_root
  rw [h]
  dsimp only
  rw [hd]

/-- Resolver, heuristic fallback with no guess. -/
theorem resolve_root_heuristic_none {q metaId : Str} {entries : List (Option (List (List Str)))}
    {net : Net} (h : authCand q metaId entries = none)
    (hg : get_possible_root (normQ q) = none) :
    resolve_root q metaId entries net = none := by
  unfold resolve_root
  rw [h]
  dsimp only
  rw [hg]

/-- Resolver, heuristic fallback with a guess awaiting validation. -/
theorem resolve_root_heuristic_some {q metaId : Str} {entries : List (Option (List (List Str)))}
    {net : Net} {g : Str} (h : authCand q metaId entries = none)
    (hg : get_possible_root (normQ q) = some g) :
    resolve_root q metaId entries net =
      if g ≠ [] ∧ validate_word_exists net g = true then some (titleS g) else none := by
  unfold resolve_root
  rw [h]
  dsimp only
  rw [hg]

/-- The overwrite fold keeps the last non-empty target. -/
theorem overwriteFold_eq (ts : List Str) (a : Option Str) :
    overwriteFold a ts =
      match (ts.filter (fun t => t ≠ [])).getLast? with
      | some t => some (titleS t)
      | none => a := by
  induction ts generalizing a with
  | nil => rfl
  | cons t ts ih =>
    by_cases ht : t ≠ []
    · have hstep : overwriteFold a (t :: ts) = overwriteFold (some (titleS t)) ts := by
        unfold overwriteFold
        simp only [List.foldl_cons, if_pos ht]
      have hfil : (t :: ts).filter (fun t => t ≠ []) = t :: ts.filter (fun t => t ≠ []) := by
        simp [List.filter_cons, ht]
      rw [hstep, ih, hfil]
      cases hf : ts.filter (fun t => t ≠ []) with
      | nil => rfl
      | cons x xs =>
        rw [List.getLast?_cons_cons]
        cases hg : (x :: xs).getLast? with
        | none => exact absurd (List.getLast?_eq_none_iff.mp hg) (by simp)
        | some u => rfl
    · have hstep : overwriteFold a (t :: ts) = overwriteFold a ts := by
        unfold overwriteFold
        simp only [List.foldl_cons, if_neg ht]
      have hfil : (t :: ts).filter (fun t => t ≠ []) = ts.filter (fun t => t ≠ []) := by
        simp [List.filter_cons, ht]
      rw [hstep, ih, hfil]

/-- One entry's two nested loops are the overwrite fold of its flattened targets. -/
theorem cxsFold_eq (cxs : List (List Str)) (a : Option Str) :
    cxs.foldl
      (fun acc2 cxtis =>
        cxtis.foldl (fun acc3 tgt => if tgt ≠ [] then some (titleS tgt) else acc3) acc2) a
    = overwriteFold a cxs.flatten := by
  induction cxs generalizing a with
  | nil => rfl
  | cons c cs ih =>
    simp only [List.foldl_cons]
    rw [ih, List.flatten_cons]
    unfold overwriteFold
    rw [List.foldl_append]

/-- The whole cross-reference scan is the overwrite fold of all targets. -/
theorem cxScan_go (entries : List (Option (List (List Str)))) :
    ∀ a : Option Str,
      entries.foldl
        (fun acc entry =>
          match entry with
          | none => acc
          | some cxs =>
            cxs.foldl
              (fun acc2 cxtis =>
                cxtis.foldl (fun acc3 tgt => if tgt ≠ [] then some (titleS tgt) else acc3) acc2)
              acc)
        a = overwriteFold a ((entries.filterMap id).flatten.flatten) := by
  induction entries with
  | nil =>
    intro a
    rfl
  | cons e es ih =>
    intro a
    cases e with
    | none =>
      simp only [List.foldl_cons]
      exact ih a
    | some cxs =>
      simp only [List.foldl_cons]
      rw [cxsFold_eq, ih]
      have hfm : List.filterMap id (some cxs :: es) = cxs :: List.filterMap id es :=
        @List.filterMap_cons_some _ _ id (some cxs) es cxs rfl
      have hflat : (((some cxs :: es).filterMap id).flatten.flatten : List Str)
          = cxs.flatten ++ ((es.filterMap id).flatten.flatten) := by
        rw [hfm, List.flatten_cons, List.flatten_append]
      rw [hflat]
      unfold overwriteFold
      rw [List.foldl_append]

/-! ### Claims -/

/-- C1, counterexample: for query "run" with no redirect metadata and a sense
whose cross-reference target is "run" itself, `resolve_root` returns "Run",
which is case-insensitively equal to the normalised query — so the claimed
invariant fails on the cross-reference path. -/
theorem claim_C1_counterexample :
    resolve_root (s2l "run") [] [some [[s2l "run"]]] netYes = some (s2l "Run") ∧
    lowerS (s2l "Run") = normQ (s2l "run") := by
  decide

/-- C1 (amended): a candidate registered by the redirect check, and a candidate
returned on the heuristic-fallback path, are never case-insensitively equal to
the normalised query; candidates from the cross-reference scan (which never
compares its target with the query) or from deepening can coincide with it. -/
theorem claim_C1 :
    (∀ metaId target r : Str, redirectCand metaId target = some r → lowerS r ≠ target) ∧
    (∀ (q metaId : Str) (entries : List (Option (List (List Str)))) (net : Net) (c : Str),
      redirectCand metaId (normQ q) = none → cxScan entries = none →
      resolve_root q metaId entries net = some c → lowerS c ≠ normQ q) := by
  constructor
  · intro metaId target r h
    unfold redirectCand at h
    dsimp only at h
    by_cases h1 : metaId.takeWhile (fun c => c != ':') ≠ [] ∧
        lowerS (metaId.takeWhile (fun c => c != ':')) ≠ target
    · rw [if_pos h1] at h
      by_cases h2 : isSub (lowerS (metaId.takeWhile (fun c => c != ':'))) target = true
      · rw [if_pos h2] at h
        exact Option.noConfusion h
      · rw [if_neg h2] at h
        have hr : titleS (metaId.takeWhile (fun c => c != ':')) = r := Option.some.inj h
        intro heq
        apply h2
        rw [← hr, lowerS_titleS] at heq
        rw [heq]
        exact isSub_refl target
    · rw [if_neg h1] at h
      exact Option.noConfusion h
  · intro q metaId entries net c h1 h2 hres
    have hnone : authCand q metaId entries = none := (authCand_cx h1).trans h2
    cases hg : get_possible_root (normQ q) with
    | none =>
      rw [resolve_root_heuristic_none hnone hg] at hres
      exact Option.noConfusion hres
    | some g =>
      rw [resolve_root_heuristic_some hnone hg] at hres
      by_cases hv : g ≠ [] ∧ validate_word_exists net g = true
      · rw [if_pos hv] at hres
        have hcg : titleS g = c := Option.some.inj hres
        intro heq
        rw [← hcg, lowerS_titleS] at heq
        have hlt : g.length < (normQ (normQ q)).length := gpr_some_lt hg
        have hle : (normQ (normQ q)).length ≤ (normQ q).length := normQ_length_le (normQ q)
        have hlg : (lowerS g).length = g.length := lowerS_length g
        have hql : (lowerS g).length = (normQ q).length := by rw [heq]
        omega
      · rw [if_neg hv] at hres
        exact Option.noConfusion hres

/-- C1 witness: the heuristic-path candidate "Run" for query "running" differs
case-insensitively from the normalised query. -/
theorem claim_C1_witness : lowerS (s2l "Run") ≠ normQ (s2l "running") :=
  claim_C1.2 (s2l "running") [] [] netYes (s2l "Run") (by decide) rfl (by decide)

/-- C2: a redirect candidate is registered iff the `':'`-stripped canonical
identifier is non-empty and its lowercase form is not a substring of the
normalised query; in particular for query "swimming" and canonical id
"swim:1" no redirect candidate is registered. -/
theorem claim_C2 :
    (∀ metaId q : Str,
      (redirectCand metaId (normQ q)).isSome = true ↔
        (metaId.takeWhile (fun c => c != ':') ≠ [] ∧
          isSub (lowerS (metaId.takeWhile (fun c => c != ':'))) (normQ q) = false)) ∧
    redirectCand (s2l "swim:1") (normQ (s2l "swimming")) = none := by
  constructor
  · intro metaId q
    unfold redirectCand
    dsimp only
    by_cases h1 : metaId.takeWhile (fun c => c != ':') ≠ [] ∧
        lowerS (metaId.takeWhile (fun c => c != ':')) ≠ normQ q
    · rw [if_pos h1]
      by_cases h2 : isSub (lowerS (metaId.takeWhile (fun c => c != ':'))) (normQ q) = true
      · rw [if_pos h2]
        constructor
        · intro hcon
          simp at hcon
        · intro hcon
          rw [h2] at hcon
          simp at hcon
      · rw [if_neg h2]
        constructor
        · intro _
          refine ⟨h1.1, ?_⟩
          simpa using h2
        · intro _
          simp
    · rw [if_neg h1]
      constructor
      · intro hcon
        simp at hcon
      · intro hcon
        rcases not_and_or.mp h1 with hL | hR
        · exact absurd (not_not.mp hL) hcon.1
        · have hEq : lowerS (metaId.takeWhile (fun c => c != ':')) = normQ q := not_not.mp hR
          rw [hEq, isSub_refl] at hcon
          simp at hcon
  · decide

/-- C3: `get_possible_root` reaches "fat" from "fattiest" through the two hops
"fatty" and "fat", returns none on the unchanged "swim", and never returns the
normalised input itself. -/
theorem claim_C3 :
    _get_root_step (s2l "fattiest") = some (s2l "fatty") ∧
    _get_root_step (s2l "fatty") = some (s2l "fat") ∧
    get_possible_root (s2l "fattiest") = some (s2l "fat") ∧
    get_possible_root (s2l "swim") = none ∧
    ∀ w : Str, get_possible_root w ≠ some (normQ w) := by
  refine ⟨by decide, by decide, by decide, by decide, ?_⟩
  intro w h
  exact absurd (gpr_some_lt h) (lt_irrefl _)

/-- C3 witness: the no-self-return conjunct at the concrete word "running". -/
theorem claim_C3_witness : get_possible_root (s2l "running") ≠ some (normQ (s2l "running")) :=
  claim_C3.2.2.2.2 (s2l "running")

/-- C4: the seven specified single-hop examples of `_get_root_step`. -/
theorem claim_C4 :
    _get_root_step (s2l "running") = some (s2l "run") ∧
    _get_root_step (s2l "tried") = some (s2l "try") ∧
    _get_root_step (s2l "happily") = some (s2l "happy") ∧
    _get_root_step (s2l "fattiest") = some (s2l "fatty") ∧
    _get_root_step (s2l "cats") = some (s2l "cat") ∧
    _get_root_step (s2l "boxes") = some (s2l "box") ∧
    _get_root_step (s2l "class") = none := by
  refine ⟨by decide, by decide, by decide, by decide, by decide, by decide, by decide⟩

/-- C5: with an authoritative candidate `r` whose `get_possible_root` is `d`,
the resolver returns the title-cased `d` when the validation lookup succeeds
and keeps `r` when it fails. -/
theorem claim_C5 (q metaId : Str) (entries : List (Option (List (List Str)))) (net : Net)
    (r d : Str) (hauth : authCand q metaId entries = some r)
    (hdeep : get_possible_root r = some d) :
    (validate_word_exists net d = true → resolve_root q metaId entries net = some (titleS d)) ∧
    (validate_word_exists net d = false → resolve_root q metaId entries net = some r) := by
  have hne : d ≠ [] := gpr_some_ne_nil hdeep
  constructor
  · intro hv
    rw [resolve_root_auth_some hauth hdeep, if_pos ⟨hne, hv⟩]
  · intro hv
    rw [resolve_root_auth_some hauth hdeep]
    have hno : ¬(d ≠ [] ∧ validate_word_exists net d = true) := by
      intro hcon
      rw [hv] at hcon
      exact Bool.noConfusion hcon.2
    rw [if_neg hno]

/-- C5 witness: redirect candidate "Fatty" for query "fattiest" is deepened to
"Fat" when "fat" validates. -/
theorem claim_C5_witness :
    resolve_root (s2l "fattiest") (s2l "fatty") [] netYes = some (titleS (s2l "fat")) ∧
    titleS (s2l "fat") = s2l "Fat" :=
  ⟨(claim_C5 (s2l "fattiest") (s2l "fatty") [] netYes (s2l "Fatty") (s2l "fat")
      (by decide) (by decide)).1 (by decide),
    by decide⟩

/-- C6: with no redirect and no cross-reference candidate, a heuristic guess
whose validation lookup raises or returns false is discarded: the resolver
returns none (and, being a total function into `Option`, raises nothing). -/
theorem claim_C6 (q metaId : Str) (entries : List (Option (List (List Str)))) (net : Net)
    (g : Str) (h1 : redirectCand metaId (normQ q) = none) (h2 : cxScan entries = none)
    (h3 : get_possible_root (normQ q) = some g)
    (h4 : net g = none ∨ validate_word_exists net g = false) :
    resolve_root q metaId entries net = none := by
  have hnone : authCand q metaId entries = none := (authCand_cx h1).trans h2
  have hv : validate_word_exists net g = false := by
    rcases h4 with h | h
    · unfold validate_word_exists
      rw [h]
    · exact h
  rw [resolve_root_heuristic_some hnone h3]
  have hno : ¬(g ≠ [] ∧ validate_word_exists net g = true) := by
    intro hcon
    rw [hv] at hcon
    exact Bool.noConfusion hcon.2
  rw [if_neg hno]

/-- C6 witness: query "running", no authoritative candidate, a raising lookup —
the resolver yields none. -/
theorem claim_C6_witness : resolve_root (s2l "running") [] [] netRaise = none :=
  claim_C6 (s2l "running") [] [] netRaise (s2l "run") (by decide) rfl (by decide)
    (Or.inl rfl)

/-- C7: when the redirect check registers a candidate, it is the authoritative
candidate and the sense list is never consulted (the resolver's result does not
depend on it); the cross-reference scan decides only when step 1 produced
nothing. -/
theorem claim_C7 :
    (∀ (q metaId : Str) (entries : List (Option (List (List Str)))) (net : Net) (r : Str),
      redirectCand metaId (normQ q) = some r →
        authCand q metaId entries = some r ∧
        ∀ entries2, resolve_root q metaId entries net = resolve_root q metaId entries2 net) ∧
    (∀ (q metaId : Str) (entries : List (Option (List (List Str)))),
      redirectCand metaId (normQ q) = none → authCand q metaId entries = cxScan entries) := by
  constructor
  · intro q metaId entries net r h
    refine ⟨authCand_redirect h, ?_⟩
    intro entries2
    cases hd : get_possible_root r with
    | none =>
      rw [resolve_root_auth_none (authCand_redirect h) hd,
        resolve_root_auth_none (authCand_redirect h) hd]
    | some d =>
      rw [resolve_root_auth_some (authCand_redirect h) hd,
        resolve_root_auth_some (authCand_redirect h) hd]
  · intro q metaId entries h
    exact authCand_cx h

/-- C7 witness: query "fattiest" with redirect id "fatty" and a sense carrying
cross-reference target "bogus": the redirect candidate "Fatty" wins and the
sense list is irrelevant. -/
theorem claim_C7_witness :
    authCand (s2l "fattiest") (s2l "fatty") [some [[s2l "bogus"]]] = some (s2l "Fatty") ∧
    resolve_root (s2l "fattiest") (s2l "fatty") [some [[s2l "bogus"]]] netYes =
      resolve_root (s2l "fattiest") (s2l "fatty") [] netYes :=
  ⟨(claim_C7.1 (s2l "fattiest") (s2l "fatty") [some [[s2l "bogus"]]] netYes (s2l "Fatty")
      (by decide)).1,
    (claim_C7.1 (s2l "fattiest") (s2l "fatty") [some [[s2l "bogus"]]] netYes (s2l "Fatty")
      (by decide)).2 []⟩

/-- C8: words shorter than 4 characters match no stripping rule and derive no
root. -/
theorem claim_C8 (w : Str) (h : w.length < 4) :
    _get_root_step w = none ∧ get_possible_root w = none := by
  have hn : (normQ w).length < 4 := lt_of_le_of_lt (normQ_length_le w) h
  have hstepw : _get_root_step w = none := by
    unfold _get_root_step
    rw [if_pos h]
  have hstep : _get_root_step (normQ w) = none := by
    unfold _get_root_step
    rw [if_pos hn]
  refine ⟨hstepw, ?_⟩
  unfold get_possible_root
  rw [hopLoop_of_step_none hstep 3, if_pos rfl]

/-- C8 witness: the three-letter word "cat". -/
theorem claim_C8_witness :
    (s2l "cat").length < 4 ∧ _get_root_step (s2l "cat") = none ∧
      get_possible_root (s2l "cat") = none :=
  ⟨by decide, (claim_C8 (s2l "cat") (by decide)).1, (claim_C8 (s2l "cat") (by decide)).2⟩

/-- C9: `get_possible_root` is exactly three bounded applications of the
single-hop operator `oneHop` to the normalised input (so it terminates after
at most 3 stripping hops), returning none when they go nowhere. -/
theorem claim_C9 (w : Str) :
    get_possible_root w =
      if oneHop (oneHop (oneHop (normQ w))) = normQ w then none
      else some (oneHop (oneHop (oneHop (normQ w)))) := by
  unfold get_possible_root
  rw [hopLoop_three]

/-- C10: the cross-reference scan returns the title-cased LAST non-empty
target in iteration order (later targets overwrite earlier ones), as the
concrete two-target example confirms. -/
theorem claim_C10 :
    (∀ entries : List (Option (List (List Str))),
      cxScan entries =
        ((((entries.filterMap id).flatten.flatten).filter (fun t => t ≠ [])).getLast?).map
          titleS) ∧
    cxScan [some [[s2l "alpha"]], some [[s2l "beta"], [s2l "gamma"]]] = some (s2l "Gamma") := by
  constructor
  · intro entries
    unfold cxScan
    rw [cxScan_go entries none, overwriteFold_eq]
    cases (((entries.filterMap id).flatten.flatten).filter (fun t => t ≠ [])).getLast? <;> rfl
  · decide
